import Mathlib

/-!
Verification of the `dirhypernets` degree-distribution and persistence modules.

The Python sources are embedded shallowly:

* integer degree sequences become `List Nat`;
* floating-point frequencies become exact rationals `ℚ`;
* numpy primitives (`bincount`, `linspace`, `geomspace`, `digitize`) are
  modelled by computable Lean functions with exact arithmetic; the
  geometrically spaced boundaries produced by `geomspace`, which are
  irrational reals, are handled exactly through integer power comparisons
  (`a^(num-j) * b^j ≤ v^num` encodes `a * (b/a)^(j/num) ≤ v`);
* Python exceptions become `Option`/error results;
* the file system touched by `functions.py` becomes an explicit directory
  value (a list of named typed files).
-/

/-- Maximum of a list of naturals, `0` on the empty list.  Models Python
`max(degrees)` wherever the list is known to be non-empty. -/
def listMax (l : List Nat) : Nat := l.foldr max 0

/-- Minimum of a list of naturals, `0` on the empty list.  Models Python
`min(degrees)` wherever the list is known to be non-empty. -/
def listMin (l : List Nat) : Nat :=
  match l with
  | [] => 0
  | x :: xs => xs.foldr min x

/-- Models `np.bincount(degrees)`: the frequency table indexed by degree value
`0 .. max(degrees)`; the empty input yields the empty table. -/
def bincount (degrees : List Nat) : List Nat :=
  if degrees.isEmpty then []
  else (List.range (listMax degrees + 1)).map (fun v => degrees.count v)

/-- Models `distribution.degree_distribution`.  `rho` is the normalized
frequency table, `nz` the indices where it is non-zero (`np.nonzero`), and the
fancy indexing `np.arange(len(degrees))[nz]` raises `IndexError` (modelled by
`none`) whenever some non-zero index reaches `len(degrees)`. -/
def degree_distribution (degrees : List Nat) : Option (List Nat × List ℚ) :=
  let N : ℚ := degrees.length
  let rho : List ℚ := (bincount degrees).map (fun (c : Nat) => (c : ℚ) / N)
  let nz : List Nat := (List.range rho.length).filter (fun i => decide (rho.getD i 0 ≠ 0))
  if nz.all (fun i => decide (i < degrees.length)) then
    some (nz, nz.map (fun i => rho.getD i 0))
  else none

/-- Bin index assigned by `np.digitize` against the boundary list
`np.geomspace(a, b, num, endpoint=False)`.  The `j`-th boundary is the real
number `a^((num-j)/num) * b^(j/num)`; for positive naturals, an integer `v`
lies at or beyond it iff `a^(num-j) * b^j ≤ v^num`, so the digitize result
(the number of boundaries ≤ `v`, boundaries being right-open) is computed
exactly. -/
def binOf (a b num v : Nat) : Nat :=
  (List.range num).countP (fun j => decide (a ^ (num - j) * b ^ j ≤ v ^ num))

/-- Arithmetic mean of a list of rationals (`0` on the empty list), as used by
pandas `groupby(...).mean()`. -/
def meanQ (l : List ℚ) : ℚ := l.sum / l.length

/-- Models `distribution.log_binning`.  The data frame pairs the degree column
`np.arange(max+1)[max(1,min):]` with the frequency column
`np.bincount(degrees)[max(1,min):]/len(degrees)`; each row is assigned the
digitize bin of its degree, and `groupby('bin').mean()` emits, per occupied
bin in ascending order, the mean degree and mean frequency.  Python
`max(degrees)` on the empty list raises, modelled by `none`. -/
def log_binning (degrees : List Nat) (num : Nat) : Option (List ℚ × List ℚ) :=
  if degrees.isEmpty then none else
  let N : ℚ := degrees.length
  let a := max 1 (listMin degrees)
  let b := listMax degrees
  let df := ((List.range (b + 1)).drop a).zip
    (((bincount degrees).map (fun (c : Nat) => (c : ℚ) / N)).drop a)
  let bin := fun (r : Nat × ℚ) => binOf a b num r.1
  let bins := (List.range (num + 1)).filter (fun t => df.any (fun r => bin r == t))
  some (bins.map (fun t => meanQ ((df.filter (fun r => bin r == t)).map (fun r => (r.1 : ℚ)))),
        bins.map (fun t => meanQ ((df.filter (fun r => bin r == t)).map (fun r => r.2))))

/-- Modelled from the spec description of log binning, for comparison with the
source translation `log_binning`: restrict the domain to degree values in
`[max 1 (min degrees), max degrees]`; lay `num` geometrically spaced
boundaries across it (a value equal to a boundary falls in the bin to its
right, encoded exactly by the integer comparison `a^(num-j)*b^j ≤ v^num`);
and for each non-empty bin, in ascending bin order, emit the mean of the
bin's degree values and the mean of their frequencies `count/N`. -/
def logBinningDescribed (D : List Nat) (num : Nat) : List (ℚ × ℚ) :=
  let a := max 1 (listMin D)
  let b := listMax D
  let dom := (List.range (b + 1)).filter (fun v => decide (a ≤ v))
  let binIdx := fun v => (List.range num).countP (fun j => decide (a ^ (num - j) * b ^ j ≤ v ^ num))
  ((List.range (num + 1)).filter (fun t => dom.any (fun v => binIdx v == t))).map (fun t =>
    (meanQ ((dom.filter (fun v => binIdx v == t)).map (fun (v : Nat) => (v : ℚ))),
     meanQ ((dom.filter (fun v => binIdx v == t)).map (fun v => (D.count v : ℚ) / D.length))))

/-- Models `np.linspace(lo, hi, n, endpoint=True)` in exact arithmetic:
`n` points `lo + (hi-lo)*i/(n-1)`; a single requested point is just `lo`. -/
def linspace (lo hi : ℚ) (n : Nat) : List ℚ :=
  if n ≤ 1 then List.replicate n lo
  else (List.range n).map (fun (i : Nat) => lo + (hi - lo) * i / (n - 1 : Nat))

/-- Models the vectorized lambda of `cumulative_distribution`: the fraction of
degree values strictly greater than the sample point `s`. -/
def right_prop (degrees : List Nat) (s : ℚ) : ℚ :=
  (degrees.countP (fun d => decide (s < (d : ℚ))) : ℚ) / degrees.length

/-- Models `distribution.cumulative_distribution`: the survival fraction
evaluated at `n_bins` linearly spaced points from `min(degrees)` to
`max(degrees)+1`.  Python `min`/`max` on the empty list raise, modelled by
`none`. -/
def cumulative_distribution (degrees : List Nat) (n_bins : Nat) : Option (List ℚ × List ℚ) :=
  if degrees.isEmpty then none else
  let x := linspace (listMin degrees) ((listMax degrees : ℚ) + 1) n_bins
  some (x, x.map (right_prop degrees))

/-- Exact representation of `np.geomspace(a, b, n, endpoint=True)` for natural
endpoints: the `i`-th sample point is the real `e`-th root (`e = max (n-1) 1`)
of the returned natural number `a^(n-1-i) * b^i`.  A single requested point is
just `a`. -/
def geomPowers (a b n : Nat) : List Nat :=
  if n ≤ 1 then List.replicate n a
  else (List.range n).map (fun i => a ^ (n - 1 - i) * b ^ i)

/-- Models `distribution.log_cumulative_distribution`.  The sample points
`np.geomspace(max(1,min), max+1, n_bins)` are carried exactly as their
`e`-th powers (`e = max (n_bins - 1) 1`, see `geomPowers`); a degree `d`
exceeds the `i`-th sample point iff `d^e` exceeds the listed power, so the
survival fractions are computed exactly. -/
def log_cumulative_distribution (degrees : List Nat) (n_bins : Nat) :
    Option (List Nat × List ℚ) :=
  if degrees.isEmpty then none else
  let a := max 1 (listMin degrees)
  let b := listMax degrees + 1
  let e := max (n_bins - 1) 1
  let ps := geomPowers a b n_bins
  some (ps, ps.map (fun p =>
    (degrees.countP (fun d => decide (p < d ^ e)) : ℚ) / degrees.length))

/-- A directed graph as `networkx.DiGraph` exposes it here: node list in
insertion order and edge list in insertion order (no edge data). -/
structure DiGraph where
  nodes : List Nat
  edges : List (Nat × Nat)
deriving DecidableEq, Repr

/-- Contents of an edge-list file: one `u v` line per edge, in file order. -/
structure EdgeFile where
  lines : List (Nat × Nat)
deriving DecidableEq, Repr

/-- Contents of a coordinate file: a header row of column names followed by
one row of numbers per node. -/
structure CoordFile where
  header : List String
  rows : List (List ℚ)
deriving DecidableEq, Repr

/-- The column-name tuple chosen from the coordinate count, as in both
`save_G_coords` and `get_G_coords`: `('theta','radius')` for two columns,
`('theta','radius_p','radius_m')` otherwise. -/
def coordCols (k : Nat) : List String :=
  if k = 2 then ["theta", "radius"] else ["theta", "radius_p", "radius_m"]

/-- Models `nx.write_edgelist(G, path, data=False)`: the edge list in graph
order. -/
def write_edgelist (G : DiGraph) : EdgeFile := ⟨G.edges⟩

/-- Models `pd.DataFrame(dict(zip(cols, coords))).to_csv(path, index=None,
sep=' ')`: `zip` truncates to the shorter of the two lists, the frame requires
all columns to share one length (else `ValueError`, modelled by `none`), and
the CSV holds the header followed by one row per index. -/
def coords_to_csv (coords : List (List ℚ)) : Option CoordFile :=
  let pairs := (coordCols coords.length).zip coords
  let n := (pairs.headD ("", [])).2.length
  if pairs.all (fun p => decide (p.2.length = n)) then
    some ⟨pairs.map Prod.fst, (List.range n).map (fun i => pairs.map (fun p => p.2.getD i 0))⟩
  else none

/-- Models `functions.save_G_coords`: write the edge list, then the coordinate
table (whose construction can fail). -/
def save_G_coords (G : DiGraph) (coords : List (List ℚ)) : Option (EdgeFile × CoordFile) :=
  (coords_to_csv coords).map (fun cf => (write_edgelist G, cf))

/-- Node insertion as `networkx` performs it: appending a node only if absent. -/
def addNode (l : List Nat) (n : Nat) : List Nat := if n ∈ l then l else l ++ [n]

/-- Node insertions performed by `add_edge`: both endpoints, source first. -/
def addEdgeNodes (l : List Nat) (e : Nat × Nat) : List Nat := addNode (addNode l e.1) e.2

/-- Edge insertion as `networkx` performs it: appending an edge only if absent. -/
def addEdge (l : List (Nat × Nat)) (e : Nat × Nat) : List (Nat × Nat) :=
  if e ∈ l then l else l ++ [e]

/-- Models `nx.read_edgelist(path, create_using=nx.DiGraph(), nodetype=int)`:
nodes in order of first appearance, edges deduplicated in insertion order. -/
def read_edgelist (ef : EdgeFile) : DiGraph :=
  ⟨ef.lines.foldl addEdgeNodes [], ef.lines.foldl addEdge []⟩

/-- Column extraction `df[col].values`: the values at the first header position
named `col`, or `none` (Python `KeyError`) when the name is absent. -/
def lookupCol (header : List String) (rows : List (List ℚ)) (c : String) : Option (List ℚ) :=
  match header.indexOf? c with
  | none => none
  | some j => some (rows.map (fun r => r.getD j 0))

/-- Sequencing of fallible steps in a Python loop: the first exception aborts
the whole computation. -/
def mapOpt (f : α → Option β) : List α → Option (List β)
  | [] => some []
  | a :: rest =>
    match f a, mapOpt f rest with
    | some b, some bs => some (b :: bs)
    | _, _ => none

/-- Models `functions.get_G_coords`: read the coordinate table (rows must be
rectangular for `read_csv`), pick the canonical column names from the column
count and extract those columns, read the edge list, then pad the node set
with `range(len(df))`. -/
def get_G_coords (ef : EdgeFile) (cf : CoordFile) : Option (DiGraph × List (List ℚ)) :=
  if cf.rows.all (fun r => decide (r.length = cf.header.length)) then
    match mapOpt (lookupCol cf.header cf.rows) (coordCols cf.header.length) with
    | none => none
    | some coords =>
      let G0 := read_edgelist ef
      some (⟨(List.range cf.rows.length).foldl addNode G0.nodes, G0.edges⟩, coords)
  else none

/-- A file in the persistence directory is an edge list or a coordinate table. -/
inductive FileContent where
  | edge (f : EdgeFile)
  | coord (f : CoordFile)
deriving DecidableEq

/-- A directory: named files in creation order. -/
abbrev Dir := List (String × FileContent)

/-- The write loop of `save_networks`: for record `i`, write
`edgelist_i.txt` then `coords_i.txt`; a coordinate-table failure aborts the
loop, leaving the already written files (including the current edge file)
behind. -/
def writeLoop (i : Nat) (nets : List (DiGraph × List (List ℚ))) (d : Dir) :
    Option String × Dir :=
  match nets with
  | [] => (none, d)
  | (G, coords) :: rest =>
    let d1 := d ++ [("edgelist_" ++ toString i ++ ".txt", FileContent.edge (write_edgelist G))]
    match coords_to_csv coords with
    | none => (some "ValueError", d1)
    | some cf =>
      writeLoop (i + 1) rest (d1 ++ [("coords_" ++ toString i ++ ".txt", FileContent.coord cf)])

/-- Models `functions.save_networks` acting on the target directory: create it
when absent, refuse (leaving it untouched) when it already holds files, and
otherwise run the write loop.  The result pairs the raised error, if any,
with the directory contents afterwards. -/
def save_networks (nets : List (DiGraph × List (List ℚ))) (d : Option Dir) :
    Option String × Option Dir :=
  match d with
  | none => let r := writeLoop 0 nets []; (r.1, some r.2)
  | some files =>
    if 0 < files.length then (some "The directory is not empty.", some files)
    else let r := writeLoop 0 nets files; (r.1, some r.2)

/-- Prefix test on character lists, for the substring test below. -/
def charStarts : List Char → List Char → Bool
  | [], _ => true
  | _ :: _, [] => false
  | a :: as, b :: bs => a == b && charStarts as bs

/-- Substring test on character lists: some suffix of `s` starts with `pat`. -/
def hasSubstr (pat : List Char) : List Char → Bool
  | [] => charStarts pat []
  | c :: rest => charStarts pat (c :: rest) || hasSubstr pat rest

/-- Models the Python test `pat in s` on strings. -/
def strContains (s pat : String) : Bool := hasSubstr pat.data s.data

/-- Strict lexicographic comparison by Unicode code point, as Python compares
strings. -/
def charListLt : List Char → List Char → Bool
  | [], [] => false
  | [], _ :: _ => true
  | _ :: _, [] => false
  | a :: as, b :: bs => a.toNat < b.toNat || (a.toNat == b.toNat && charListLt as bs)

/-- Insertion step of the sort modelling Python `sorted` on strings. -/
def insertStr (x : String) : List String → List String
  | [] => [x]
  | y :: ys => if charListLt x.data y.data then x :: y :: ys else y :: insertStr x ys

/-- Models Python `sorted` on a list of strings (insertion sort; the result,
an ordered permutation, is the same list `sorted` produces). -/
def sortStr (l : List String) : List String := l.foldr insertStr []

/-- Models `functions.get_networks`: filter the directory listing by the
substrings `edgelist` and `coords`, sort both name lists, and walk
`zip(edgelist_paths, coords_paths)` — which silently truncates to the shorter
list — reading each pair.  Looking up a listed name always succeeds; a
mistyped file is modelled as a read failure. -/
def get_networks (d : Dir) : Option (List (DiGraph × List (List ℚ))) :=
  let names := d.map Prod.fst
  let epaths := sortStr (names.filter (fun p => strContains p "edgelist"))
  let cpaths := sortStr (names.filter (fun p => strContains p "coords"))
  mapOpt (fun pc =>
    match d.lookup pc.1, d.lookup pc.2 with
    | some (FileContent.edge ef), some (FileContent.coord cf) => get_G_coords ef cf
    | _, _ => none) (epaths.zip cpaths)

theorem listMax_cons (x : Nat) (xs : List Nat) : listMax (x :: xs) = max x (listMax xs) := rfl

theorem le_listMax {l : List Nat} {d : Nat} (h : d ∈ l) : d ≤ listMax l := by
  induction l with
  | nil => cases h
  | cons x xs ih =>
    rcases List.mem_cons.1 h with h1 | h1
    · subst h1; exact le_max_left _ _
    · exact le_trans (ih h1) (le_max_right _ _)

theorem listMax_mem {l : List Nat} (h : l ≠ []) : listMax l ∈ l := by
  induction l with
  | nil => exact absurd rfl h
  | cons x xs ih =>
    cases xs with
    | nil => simp [listMax]
    | cons y ys =>
      rw [listMax_cons]
      rcases max_choice x (listMax (y :: ys)) with h1 | h1
      · rw [h1]; exact List.mem_cons_self _ _
      · rw [h1]; exact List.mem_cons_of_mem _ (ih (by simp))

theorem foldr_min_mem (xs : List Nat) (x : Nat) : xs.foldr min x ∈ x :: xs := by
  induction xs with
  | nil => simp
  | cons y ys ih =>
    rw [List.foldr_cons]
    rcases min_choice y (ys.foldr min x) with h | h
    · rw [h]; simp
    · rw [h]
      rcases List.mem_cons.1 ih with h1 | h1
      · rw [h1]; simp
      · exact List.mem_cons_of_mem _ (List.mem_cons_of_mem _ h1)

theorem foldr_min_le (xs : List Nat) (x : Nat) : ∀ d ∈ x :: xs, xs.foldr min x ≤ d := by
  induction xs with
  | nil =>
    intro d hd
    simp only [List.mem_singleton] at hd
    simp [hd]
  | cons y ys ih =>
    intro d hd
    rw [List.foldr_cons]
    have hx : ys.foldr min x ≤ x := ih x (List.mem_cons_self _ _)
    rcases List.mem_cons.1 hd with h1 | h1
    · subst h1; exact le_trans (min_le_right _ _) hx
    · rcases List.mem_cons.1 h1 with h2 | h2
      · subst h2; exact min_le_left _ _
      · exact le_trans (min_le_right _ _) (ih d (List.mem_cons_of_mem _ h2))

theorem listMin_mem {l : List Nat} (h : l ≠ []) : listMin l ∈ l := by
  cases l with
  | nil => exact absurd rfl h
  | cons x xs => exact foldr_min_mem xs x

theorem listMin_le {l : List Nat} {d : Nat} (h : d ∈ l) : listMin l ≤ d := by
  cases l with
  | nil => cases h
  | cons x xs => exact foldr_min_le xs x d h

theorem listMin_le_listMax {l : List Nat} (h : l ≠ []) : listMin l ≤ listMax l :=
  le_trans (listMin_le (listMax_mem h)) (le_refl _)

theorem filter_le_range (a n : Nat) :
    (List.range n).filter (fun v => decide (a ≤ v)) = (List.range n).drop a := by
  induction n with
  | zero => simp
  | succ n ih =>
    rw [List.range_succ, List.filter_append, ih]
    by_cases h : a ≤ n
    · rw [List.drop_append_of_le_length (by simpa using h)]
      simp [h]
    · rw [List.drop_eq_nil_of_le (by simp; omega),
        List.drop_eq_nil_of_le (by simp; omega)]
      simp [h]

theorem getD_map_range {β : Type} (f : Nat → β) (d : β) {i n : Nat} (h : i < n) :
    ((List.range n).map f).getD i d = f i := by
  rw [List.getD_eq_getElem _ _ (by simpa using h), List.getElem_map, List.getElem_range]

theorem length_pos_of_ne {l : List Nat} (h : l ≠ []) : (0 : ℚ) < l.length := by
  have := List.length_pos.2 h
  exact_mod_cast this

/-- Normal form of `degree_distribution`: on a non-empty input it succeeds
exactly when `max < len`, and then lists the distinct degree values present in
the input, ascending, with their exact relative frequencies. -/
theorem degree_distribution_eq (D : List Nat) (h : D ≠ []) :
    degree_distribution D =
      if listMax D < D.length then
        some ((List.range (listMax D + 1)).filter (fun v => decide (v ∈ D)),
              ((List.range (listMax D + 1)).filter (fun v => decide (v ∈ D))).map
                (fun v => (D.count v : ℚ) / D.length))
      else none := by
  have hN : (0 : ℚ) < D.length := length_pos_of_ne h
  have hisE : ¬ (D.isEmpty = true) := by simpa [List.isEmpty_iff] using h
  have hrho : (bincount D).map (fun (c : Nat) => (c : ℚ) / (D.length : ℚ)) =
      (List.range (listMax D + 1)).map (fun v => (D.count v : ℚ) / (D.length : ℚ)) := by
    rw [bincount, if_neg hisE, List.map_map]; rfl
  have hgetD : ∀ i, i < listMax D + 1 →
      ((List.range (listMax D + 1)).map
        (fun v => (D.count v : ℚ) / (D.length : ℚ))).getD i 0
        = (D.count i : ℚ) / (D.length : ℚ) := fun i hi => getD_map_range _ _ hi
  have hnz : (List.range (listMax D + 1)).filter
        (fun i => decide (((List.range (listMax D + 1)).map
          (fun v => (D.count v : ℚ) / (D.length : ℚ))).getD i 0 ≠ 0))
      = (List.range (listMax D + 1)).filter (fun v => decide (v ∈ D)) := by
    apply List.filter_congr
    intro i hi
    have hi1 : i < listMax D + 1 := List.mem_range.1 hi
    rw [hgetD i hi1, decide_eq_decide, div_ne_zero_iff]
    constructor
    · rintro ⟨hc, -⟩
      have hc1 : D.count i ≠ 0 := by exact_mod_cast hc
      exact List.count_pos_iff.1 (Nat.pos_of_ne_zero hc1)
    · intro hmem
      refine ⟨?_, ne_of_gt hN⟩
      have : 0 < D.count i := List.count_pos_iff.2 hmem
      exact_mod_cast Nat.pos_iff_ne_zero.1 this
  simp only [degree_distribution]
  rw [hrho]
  simp only [List.length_map, List.length_range]
  rw [hnz]
  by_cases hml : listMax D < D.length
  · rw [if_pos hml]
    have hguard : ((List.range (listMax D + 1)).filter (fun v => decide (v ∈ D))).all
        (fun i => decide (i < D.length)) = true := by
      apply List.all_eq_true.2
      intro i hi
      have hi1 : i < listMax D + 1 := List.mem_range.1 (List.mem_filter.1 hi).1
      exact decide_eq_true (lt_of_le_of_lt (Nat.le_of_lt_succ hi1) hml)
    rw [if_pos hguard]
    refine congrArg some (Prod.ext rfl ?_)
    apply List.map_congr_left
    intro i hi
    exact hgetD i (List.mem_range.1 (List.mem_filter.1 hi).1)
  · rw [if_neg hml]
    have hguard : ¬ (((List.range (listMax D + 1)).filter (fun v => decide (v ∈ D))).all
        (fun i => decide (i < D.length)) = true) := by
      intro hA
      have hmF : listMax D ∈ (List.range (listMax D + 1)).filter (fun v => decide (v ∈ D)) := by
        refine List.mem_filter.2 ⟨List.mem_range.2 (Nat.lt_succ_self _), ?_⟩
        exact decide_eq_true (listMax_mem h)
      have := List.all_eq_true.1 hA _ hmF
      exact hml (of_decide_eq_true this)
    rw [if_neg hguard]

/-- C1, counterexample: the claim quantifies over every non-empty sequence of
non-negative degrees, but on `[3]` the code raises an `IndexError` (the
non-zero bincount position 3 is used to index `np.arange(1)`) instead of
returning the series `k=[3]`, `rho_k=[1]`. -/
theorem degree_distribution_total_claim_false : degree_distribution [3] = none := by
  rw [degree_distribution_eq [3] (by decide)]
  norm_num [listMax]

/-- C1 (amended): for every non-empty degree sequence whose maximum is below
its length, `degree_distribution` returns the degree values in
`0..max(degrees)` with non-zero observed frequency, ascending, paired with
the corresponding counts divided by `len(degrees)`. -/
theorem degree_distribution_correct_when_max_lt_len (D : List Nat) (h : D ≠ [])
    (hml : listMax D < D.length) :
    degree_distribution D =
      some ((List.range (listMax D + 1)).filter (fun v => decide (v ∈ D)),
            ((List.range (listMax D + 1)).filter (fun v => decide (v ∈ D))).map
              (fun v => (D.count v : ℚ) / D.length)) := by
  rw [degree_distribution_eq D h, if_pos hml]

/-- Witness for C1 on the concrete example of the claim:
`degree_distribution [1,1,2,3,3,3]` is `k=[1,2,3]`, `rho_k=[2/6,1/6,3/6]`. -/
theorem degree_distribution_correct_witness :
    degree_distribution [1, 1, 2, 3, 3, 3] =
      some ([1, 2, 3], [2 / 6, 1 / 6, 3 / 6]) := by
  rw [degree_distribution_correct_when_max_lt_len [1, 1, 2, 3, 3, 3] (by decide)
    (by norm_num [listMax])]
  norm_num [listMax, List.range_succ]

/-- C2: on a non-empty degree sequence containing a value at least
`len(degrees)`, `degree_distribution` fails with the out-of-bounds indexing
error rather than returning a series, and it returns successfully exactly
when `max(degrees) < len(degrees)`. -/
theorem degree_distribution_overflow (D : List Nat) (h : D ≠ []) :
    ((∃ d ∈ D, D.length ≤ d) → degree_distribution D = none) ∧
    ((degree_distribution D).isSome ↔ listMax D < D.length) := by
  have he := degree_distribution_eq D h
  constructor
  · rintro ⟨d, hd, hlen⟩
    have hnot : ¬ listMax D < D.length := by
      have := le_listMax hd; omega
    rw [he, if_neg hnot]
  · by_cases hml : listMax D < D.length
    · simp [he, hml]
    · simp [he, hml]

/-- Witness for C2 at the concrete input `[3]` named by the claim. -/
theorem degree_distribution_overflow_witness :
    degree_distribution [3] = none ∧
    ((degree_distribution [3]).isSome ↔ listMax [3] < [3].length) := by
  have h := degree_distribution_overflow [3] (by decide)
  exact ⟨h.1 ⟨3, by decide, by decide⟩, h.2⟩

theorem bincount_norm (D : List Nat) (h : D ≠ []) :
    (bincount D).map (fun (c : Nat) => (c : ℚ) / (D.length : ℚ)) =
    (List.range (listMax D + 1)).map (fun v => (D.count v : ℚ) / (D.length : ℚ)) := by
  have hisE : ¬ (D.isEmpty = true) := by simpa [List.isEmpty_iff] using h
  rw [bincount, if_neg hisE, List.map_map]
  rfl

theorem zip_self_map {α β : Type} (l : List α) (g : α → β) :
    l.zip (l.map g) = l.map (fun v => (v, g v)) := by
  induction l with
  | nil => rfl
  | cons x xs ih => simp [ih]

theorem any_map_gen {α β : Type} (l : List α) (f : α → β) (p : β → Bool) :
    (l.map f).any p = l.any (fun a => p (f a)) := by
  induction l with
  | nil => rfl
  | cons x xs ih => simp [ih]

/-- The source translation `log_binning` agrees, on every non-empty input,
with the spec-described computation `logBinningDescribed`. -/
theorem log_binning_eq_described (D : List Nat) (num : Nat) (hD : D ≠ []) :
    log_binning D num =
      some ((logBinningDescribed D num).map Prod.fst,
            (logBinningDescribed D num).map Prod.snd) := by
  have hisE : ¬ (D.isEmpty = true) := by simpa [List.isEmpty_iff] using hD
  simp only [log_binning, logBinningDescribed]
  rw [if_neg hisE, bincount_norm D hD, ← List.map_drop, zip_self_map, filter_le_range]
  simp only [binOf, any_map_gen, List.filter_map, List.map_map, Function.comp_def]

theorem filter_range_succ_length_le {p : Nat → Bool} (n : Nat) (h0 : p 0 = false) :
    ((List.range (n + 1)).filter p).length ≤ n := by
  rw [List.range_succ_eq_map, List.filter_cons, h0]
  simp only [Bool.false_eq_true, if_false]
  exact le_trans (List.length_filter_le _ _) (by simp)

theorem logBinningDescribed_length_le (D : List Nat) (num : Nat) (h1 : 1 ≤ num) :
    (logBinningDescribed D num).length ≤ num := by
  simp only [logBinningDescribed, List.length_map]
  apply filter_range_succ_length_le
  apply List.any_eq_false.2
  intro v hv
  have hav : max 1 (listMin D) ≤ v := of_decide_eq_true (List.mem_filter.1 hv).2
  have hpos : 0 < (List.range num).countP
      (fun j => decide (max 1 (listMin D) ^ (num - j) * listMax D ^ j ≤ v ^ num)) := by
    apply List.countP_pos_iff.2
    refine ⟨0, List.mem_range.2 h1, ?_⟩
    simp only [Nat.sub_zero, pow_zero, mul_one]
    exact decide_eq_true (Nat.pow_le_pow_left hav num)
  simp [Nat.pos_iff_ne_zero.1 hpos]

/-- C3: on a non-empty degree sequence with `min < max` and `num ≥ 2`,
`log_binning` computes exactly the spec-described series: domain
`[max 1 (min), max]`, `num` geometrically spaced boundaries with boundary
values falling into the bin on their right, and, per non-empty bin in
ascending order, the mean degree as `x` and the mean frequency as `y`; the
output has at most `num` rows. -/
theorem log_binning_matches_spec (D : List Nat) (num : Nat) (hD : D ≠ [])
    (hrange : listMin D < listMax D) (hnum : 2 ≤ num) :
    log_binning D num =
      some ((logBinningDescribed D num).map Prod.fst,
            (logBinningDescribed D num).map Prod.snd) ∧
    (logBinningDescribed D num).length ≤ num :=
  ⟨log_binning_eq_described D num hD,
   logBinningDescribed_length_le D num (le_trans (by norm_num) hnum)⟩

/-- Witness for C3 at `D = [1,1,2,3,3,3]`, `num = 2`: the domain `[1,2,3]`
splits at the boundary `sqrt 3` into bins `{1}` and `{2,3}`, giving
`x = [1, 5/2]` and `y = [1/3, 1/3]`. -/
theorem log_binning_matches_spec_witness :
    log_binning [1, 1, 2, 3, 3, 3] 2 = some ([1, 5 / 2], [1 / 3, 1 / 3]) ∧
    (logBinningDescribed [1, 1, 2, 3, 3, 3] 2).length ≤ 2 := by
  have h := log_binning_matches_spec [1, 1, 2, 3, 3, 3] 2 (by decide) (by decide) (by norm_num)
  refine ⟨?_, h.2⟩
  rw [h.1]
  norm_num [logBinningDescribed, listMin, listMax, meanQ, List.range_succ, List.count_cons]

theorem geomPowers_length (a b n : Nat) : (geomPowers a b n).length = n := by
  rw [geomPowers]; split <;> simp

theorem log_cumulative_total (D : List Nat) (n_bins : Nat) (hD : D ≠ []) :
    ∃ ps y, log_cumulative_distribution D n_bins = some (ps, y) ∧
      ps.length = n_bins ∧ y.length = n_bins := by
  have hisE : ¬ (D.isEmpty = true) := by simpa [List.isEmpty_iff] using hD
  simp only [log_cumulative_distribution]
  rw [if_neg hisE]
  exact ⟨_, _, rfl, geomPowers_length _ _ _,
    by rw [List.length_map]; exact geomPowers_length _ _ _⟩

theorem filter_self_beq_range (n : Nat) :
    (List.range (n + 1)).filter (fun t => n == t) = [n] := by
  rw [List.range_succ, List.filter_append]
  have h1 : (List.range n).filter (fun t => n == t) = [] := by
    apply List.filter_eq_nil_iff.2
    intro t ht
    have := List.mem_range.1 ht
    simp; omega
  rw [h1]
  simp

/-- C4, counterexample: on the degenerate sequence `[3]` (`min = max = 3`)
neither function raises: `log_binning` returns the single-row series
`([3], [1])` (the constant geomspace boundaries all coincide with 3, so the
whole domain lands in one bin) and `log_cumulative_distribution` returns a
full 5-point series. -/
theorem log_binning_min_eq_max_no_error :
    log_binning [3] 2 = some ([3], [1]) ∧
    log_cumulative_distribution [3] 5 =
      some ([81, 108, 144, 192, 256], [0, 0, 0, 0, 0]) := by
  constructor
  · rw [log_binning_eq_described [3] 2 (by decide)]
    norm_num [logBinningDescribed, listMin, listMax, meanQ, List.range_succ]
  · norm_num [log_cumulative_distribution, geomPowers, listMin, listMax, List.range_succ]

/-- C4 (amended): a non-empty degree sequence with `min = max` is not
rejected by either function.  `log_cumulative_distribution` returns a full
`n_bins`-point series; `log_binning` returns the single-row series
`([max], [1])` when `max > 0`, and the empty series when `max = 0` (the
log-binning domain `[max(1,min), max]` is then empty). -/
theorem log_binning_degenerate (D : List Nat) (num n_bins : Nat) (hD : D ≠ [])
    (heq : listMin D = listMax D) :
    (if listMax D = 0 then log_binning D num = some ([], [])
     else log_binning D num = some ([(listMax D : ℚ)], [1])) ∧
    (∃ ps y, log_cumulative_distribution D n_bins = some (ps, y) ∧
      ps.length = n_bins ∧ y.length = n_bins) := by
  refine ⟨?_, log_cumulative_total D n_bins hD⟩
  by_cases hb : listMax D = 0
  · rw [if_pos hb]
    have hmin : listMin D = 0 := by rw [heq, hb]
    rw [log_binning_eq_described D num hD]
    simp [logBinningDescribed, hb, hmin, List.range_succ]
  · rw [if_neg hb]
    have hm1 : 1 ≤ listMax D := Nat.pos_of_ne_zero hb
    have hall : ∀ d ∈ D, d = listMax D := fun d hd =>
      le_antisymm (le_listMax hd) (heq ▸ listMin_le hd)
    have hmm : max 1 (listMin D) = listMax D := by
      rw [heq]; omega
    have hcount : D.count (listMax D) = D.length :=
      List.count_eq_length.2 (fun b hb1 => (hall b hb1).symm)
    have hN : (0 : ℚ) < D.length := length_pos_of_ne hD
    rw [log_binning_eq_described D num hD]
    have hdom : (List.range (listMax D + 1)).filter
        (fun v => decide (max 1 (listMin D) ≤ v)) = [listMax D] := by
      rw [hmm, filter_le_range, List.range_succ,
        List.drop_append_of_le_length (by simp),
        List.drop_eq_nil_of_le (by simp)]
      rfl
    have hbin : (List.range num).countP
        (fun j => decide (max 1 (listMin D) ^ (num - j) * listMax D ^ j
          ≤ listMax D ^ num)) = num := by
      rw [hmm]
      conv_rhs => rw [← List.length_range num]
      apply List.countP_eq_length.2
      intro j hj
      apply decide_eq_true
      rw [← pow_add, Nat.sub_add_cancel (le_of_lt (List.mem_range.1 hj))]
    simp only [logBinningDescribed, hdom]
    simp only [List.any_cons, List.any_nil, Bool.or_false, hbin,
      List.filter_cons, List.filter_nil, beq_iff_eq]
    rw [filter_self_beq_range num]
    simp only [List.map_cons, List.map_nil, List.filter_cons, List.filter_nil, hbin]
    simp [meanQ, hcount, div_self (ne_of_gt hN)]

theorem linspace_length (lo hi : ℚ) (n : Nat) : (linspace lo hi n).length = n := by
  rw [linspace]; split <;> simp

theorem linspace_getD (lo hi : ℚ) {n i : Nat} (hn : 2 ≤ n) (hi2 : i < n) :
    (linspace lo hi n).getD i 0 = lo + (hi - lo) * i / (n - 1 : Nat) := by
  rw [linspace, if_neg (by omega)]
  exact getD_map_range _ _ hi2

theorem getD_map {α β : Type} (f : α → β) (d : β) (d0 : α) (l : List α) {i : Nat}
    (h : i < l.length) : (l.map f).getD i d = f (l.getD i d0) := by
  rw [List.getD_eq_getElem _ _ (by simpa using h), List.getElem_map,
    List.getD_eq_getElem _ _ h]

/-- C5, counterexample: with `n_bins = 1` the sample grid is only
`[min(degrees)]` (`np.linspace(lo, hi, 1)` is `[lo]`), so the claimed
inclusion of the right endpoint `max(degrees)+1` fails: on `[0]` the result
is `([0], [0])` and the endpoint `1` is not among the sample points. -/
theorem cumulative_distribution_single_point :
    cumulative_distribution [0] 1 = some ([0], [0]) ∧
    ¬ ((listMax [0] : ℚ) + 1 ∈ [(0 : ℚ)]) := by
  constructor
  · norm_num [cumulative_distribution, linspace, right_prop, listMin, listMax]
  · norm_num [listMax]

/-- C5 (amended): for every non-empty degree sequence and `n_bins ≥ 2`,
`cumulative_distribution` returns `x` = `n_bins` linearly spaced points from
`min(degrees)` to `max(degrees)+1` with both endpoints included, and
`y(s)` = (number of degree values strictly greater than `s`) / `len(degrees)`
at every sample point; with `n_bins = 1` the grid degenerates to the single
point `min(degrees)`. -/
theorem cumulative_distribution_spec (D : List Nat) (n : Nat) (hD : D ≠ [])
    (hn : 2 ≤ n) :
    ∃ x y, cumulative_distribution D n = some (x, y) ∧
      x.length = n ∧ y.length = n ∧
      x.getD 0 0 = (listMin D : ℚ) ∧
      x.getD (n - 1) 0 = (listMax D : ℚ) + 1 ∧
      (∀ i, i < n → x.getD i 0 =
        (listMin D : ℚ) + (((listMax D : ℚ) + 1) - (listMin D : ℚ)) * i / (n - 1 : Nat)) ∧
      (∀ i, i < n → y.getD i 0 =
        (D.countP (fun d => decide (x.getD i 0 < (d : ℚ))) : ℚ) / D.length) := by
  have hisE : ¬ (D.isEmpty = true) := by simpa [List.isEmpty_iff] using hD
  have hne : ((n - 1 : Nat) : ℚ) ≠ 0 := by
    have : 1 ≤ n - 1 := by omega
    exact_mod_cast Nat.pos_iff_ne_zero.1 this
  simp only [cumulative_distribution]
  rw [if_neg hisE]
  refine ⟨_, _, rfl, linspace_length _ _ _,
    by rw [List.length_map, linspace_length], ?_, ?_, ?_, ?_⟩
  · rw [linspace_getD _ _ hn (by omega)]
    simp
  · rw [linspace_getD _ _ hn (by omega)]
    rw [mul_div_assoc, div_self hne, mul_one]
    ring
  · intro i hi2
    exact linspace_getD _ _ hn hi2
  · intro i hi2
    rw [getD_map _ _ 0 _ (by rw [linspace_length]; exact hi2)]
    rfl

/-- Witness for C5 at `D = [1,1,2,3,3,3]`, `n_bins = 4`: the grid is
`[1,2,3,4]` and the survival values are the claimed counts over 6. -/
theorem cumulative_distribution_spec_witness :
    ∃ x y, cumulative_distribution [1, 1, 2, 3, 3, 3] 4 = some (x, y) ∧
      x.length = 4 ∧ y.length = 4 ∧
      x.getD 0 0 = (listMin [1, 1, 2, 3, 3, 3] : ℚ) ∧
      x.getD 3 0 = (listMax [1, 1, 2, 3, 3, 3] : ℚ) + 1 ∧
      (∀ i, i < 4 → x.getD i 0 =
        (listMin [1, 1, 2, 3, 3, 3] : ℚ) +
          (((listMax [1, 1, 2, 3, 3, 3] : ℚ) + 1) - (listMin [1, 1, 2, 3, 3, 3] : ℚ)) * i
            / (3 : Nat)) ∧
      (∀ i, i < 4 → y.getD i 0 =
        ([1, 1, 2, 3, 3, 3].countP (fun d => decide (x.getD i 0 < (d : ℚ))) : ℚ) / 6) :=
  cumulative_distribution_spec [1, 1, 2, 3, 3, 3] 4 (by decide) (by norm_num)

/-- The survival fraction is antitone in the sample point. -/
theorem right_prop_antitone (D : List Nat) {s t : ℚ} (h : s ≤ t) :
    right_prop D t ≤ right_prop D s := by
  rw [right_prop, right_prop]
  have hc : D.countP (fun d => decide (t < (d : ℚ))) ≤
      D.countP (fun d => decide (s < (d : ℚ))) :=
    List.countP_mono_left
      (fun d _ hp => decide_eq_true (lt_of_le_of_lt h (of_decide_eq_true hp)))
  exact div_le_div_of_nonneg_right (by exact_mod_cast hc) (Nat.cast_nonneg _)

/-- C7: for every non-empty degree sequence and `n_bins ≥ 1`, the `y` series
of `cumulative_distribution` is monotone non-increasing along the grid, the
grid starts at `min(degrees)`, and the first `y` value is
(count of degrees strictly above the minimum) / `len(degrees)`. -/
theorem cumulative_distribution_monotone (D : List Nat) (n : Nat) (hD : D ≠ [])
    (hn : 1 ≤ n) :
    ∃ x y, cumulative_distribution D n = some (x, y) ∧
      x.getD 0 0 = (listMin D : ℚ) ∧
      y.getD 0 0 =
        (D.countP (fun d => decide ((listMin D : ℚ) < (d : ℚ))) : ℚ) / D.length ∧
      ∀ i j, i ≤ j → j < n → y.getD j 0 ≤ y.getD i 0 := by
  have hisE : ¬ (D.isEmpty = true) := by simpa [List.isEmpty_iff] using hD
  simp only [cumulative_distribution]
  rw [if_neg hisE]
  have hx0 : (linspace (listMin D : ℚ) ((listMax D : ℚ) + 1) n).getD 0 0 = (listMin D : ℚ) := by
    by_cases h1 : n ≤ 1
    · have hn1 : n = 1 := by omega
      subst hn1
      rfl
    · rw [linspace_getD _ _ (by omega) (by omega)]
      simp
  have hxmono : ∀ i j, i ≤ j → j < n →
      (linspace (listMin D : ℚ) ((listMax D : ℚ) + 1) n).getD i 0 ≤
      (linspace (listMin D : ℚ) ((listMax D : ℚ) + 1) n).getD j 0 := by
    intro i j hij hj
    by_cases h1 : n ≤ 1
    · have hi0 : i = 0 := by omega
      have hj0 : j = 0 := by omega
      subst hi0; subst hj0
      exact le_refl _
    · have h2 : 2 ≤ n := by omega
      rw [linspace_getD _ _ h2 (lt_of_le_of_lt hij hj), linspace_getD _ _ h2 hj]
      apply add_le_add_left
      apply div_le_div_of_nonneg_right _ (Nat.cast_nonneg _)
      have hΔ : (0 : ℚ) ≤ ((listMax D : ℚ) + 1) - (listMin D : ℚ) := by
        have : (listMin D : ℚ) ≤ (listMax D : ℚ) := by
          exact_mod_cast listMin_le_listMax hD
        linarith
      exact mul_le_mul_of_nonneg_left (by exact_mod_cast hij) hΔ
  refine ⟨_, _, rfl, hx0, ?_, ?_⟩
  · rw [getD_map _ _ 0 _ (by rw [linspace_length]; omega), hx0]
    rfl
  · intro i j hij hj
    rw [getD_map _ _ 0 _ (by rw [linspace_length]; exact hj),
      getD_map _ _ 0 _ (by rw [linspace_length]; omega)]
    exact right_prop_antitone D (hxmono i j hij hj)

/-- Witness for C7 at `D = [1,1,2,3,3,3]`, `n_bins = 4`. -/
theorem cumulative_distribution_monotone_witness :
    ∃ x y, cumulative_distribution [1, 1, 2, 3, 3, 3] 4 = some (x, y) ∧
      x.getD 0 0 = (listMin [1, 1, 2, 3, 3, 3] : ℚ) ∧
      y.getD 0 0 =
        ([1, 1, 2, 3, 3, 3].countP
          (fun d => decide ((listMin [1, 1, 2, 3, 3, 3] : ℚ) < (d : ℚ))) : ℚ) / 6 ∧
      ∀ i j, i ≤ j → j < 4 → y.getD j 0 ≤ y.getD i 0 :=
  cumulative_distribution_monotone [1, 1, 2, 3, 3, 3] 4 (by decide) (by norm_num)

theorem geomPowers_getD (a b : Nat) {n i : Nat} (hn : 2 ≤ n) (hi2 : i < n) :
    (geomPowers a b n).getD i 0 = a ^ (n - 1 - i) * b ^ i := by
  rw [geomPowers, if_neg (by omega)]
  exact getD_map_range _ _ hi2

/-- C6, counterexample: with `n_bins = 1` the geomspace grid is only the
single left endpoint `max(1, min(degrees))` (`np.geomspace(a, b, 1)` is
`[a]`), so the claimed inclusion of the right endpoint `max(degrees)+1`
fails: on `[2]` the sample grid is `[2]` (carried as its own first power) and
the endpoint `3` is not among the sample points. -/
theorem log_cumulative_single_point :
    log_cumulative_distribution [2] 1 = some ([2], [0]) ∧
    ¬ ((listMax [2] + 1) ∈ [(2 : Nat)]) := by
  constructor
  · norm_num [log_cumulative_distribution, geomPowers, listMin, listMax]
  · norm_num [listMax]

/-- C6 (amended): for every non-empty degree sequence and `n_bins ≥ 2`,
`log_cumulative_distribution` samples `n_bins` geometrically spaced points
from `max(1, min(degrees))` to `max(degrees)+1` with both endpoints included
— the `i`-th point is carried exactly as its `(n_bins-1)`-th power, the
endpoint powers are `a^(n-1)` and `(max+1)^(n-1)`, and consecutive powers are
in the constant ratio `(max+1)/a` — and `y` carries the same right-tail
survival values `(count of degrees strictly above the sample point)/len`,
computed exactly on the powers; with `n_bins = 1` the grid degenerates to the
single left endpoint. -/
theorem log_cumulative_distribution_spec (D : List Nat) (n : Nat) (hD : D ≠ [])
    (hn : 2 ≤ n) :
    ∃ ps y, log_cumulative_distribution D n = some (ps, y) ∧
      ps.length = n ∧ y.length = n ∧
      ps.getD 0 0 = (max 1 (listMin D)) ^ (n - 1) ∧
      ps.getD (n - 1) 0 = (listMax D + 1) ^ (n - 1) ∧
      (∀ i, i + 1 < n →
        ps.getD (i + 1) 0 * (max 1 (listMin D)) = ps.getD i 0 * (listMax D + 1)) ∧
      (∀ i, i < n → y.getD i 0 =
        (D.countP (fun d => decide (ps.getD i 0 < d ^ (n - 1))) : ℚ) / D.length) := by
  have hisE : ¬ (D.isEmpty = true) := by simpa [List.isEmpty_iff] using hD
  have he : max (n - 1) 1 = n - 1 := by omega
  simp only [log_cumulative_distribution]
  rw [if_neg hisE, he]
  refine ⟨_, _, rfl, geomPowers_length _ _ _,
    by rw [List.length_map, geomPowers_length], ?_, ?_, ?_, ?_⟩
  · rw [geomPowers_getD _ _ hn (by omega)]
    simp
  · rw [geomPowers_getD _ _ hn (by omega)]
    simp [Nat.sub_self]
  · intro i hi1
    rw [geomPowers_getD _ _ hn (by omega), geomPowers_getD _ _ hn (by omega)]
    have h1 : n - 1 - (i + 1) + 1 = n - 1 - i := by omega
    calc (max 1 (listMin D)) ^ (n - 1 - (i + 1)) * (listMax D + 1) ^ (i + 1)
          * (max 1 (listMin D))
        = (max 1 (listMin D)) ^ (n - 1 - (i + 1)) * (max 1 (listMin D))
            * (listMax D + 1) ^ (i + 1) := by ring
      _ = (max 1 (listMin D)) ^ (n - 1 - (i + 1) + 1) * (listMax D + 1) ^ (i + 1) := by
            rw [pow_succ (max 1 (listMin D)) (n - 1 - (i + 1))]
      _ = (max 1 (listMin D)) ^ (n - 1 - i) * (listMax D + 1) ^ (i + 1) := by rw [h1]
      _ = (max 1 (listMin D)) ^ (n - 1 - i) * ((listMax D + 1) ^ i * (listMax D + 1)) := by
            rw [pow_succ (listMax D + 1) i]
      _ = (max 1 (listMin D)) ^ (n - 1 - i) * (listMax D + 1) ^ i * (listMax D + 1) := by ring
  · intro i hi2
    rw [getD_map _ _ 0 _ (by rw [geomPowers_length]; exact hi2)]

/-- Witness for C6 at `D = [1,1,2,3,3,3]`, `n_bins = 3`. -/
theorem log_cumulative_distribution_spec_witness :
    ∃ ps y, log_cumulative_distribution [1, 1, 2, 3, 3, 3] 3 = some (ps, y) ∧
      ps.length = 3 ∧ y.length = 3 ∧
      ps.getD 0 0 = (max 1 (listMin [1, 1, 2, 3, 3, 3])) ^ 2 ∧
      ps.getD 2 0 = (listMax [1, 1, 2, 3, 3, 3] + 1) ^ 2 ∧
      (∀ i, i + 1 < 3 →
        ps.getD (i + 1) 0 * (max 1 (listMin [1, 1, 2, 3, 3, 3])) =
          ps.getD i 0 * (listMax [1, 1, 2, 3, 3, 3] + 1)) ∧
      (∀ i, i < 3 → y.getD i 0 =
        ([1, 1, 2, 3, 3, 3].countP (fun d => decide (ps.getD i 0 < d ^ 2)) : ℚ) / 6) :=
  log_cumulative_distribution_spec [1, 1, 2, 3, 3, 3] 3 (by decide) (by norm_num)

/-- C8: writing a batch of graph records into a directory that already exists
and holds at least one file fails with the directory-not-empty error before
any file is written, leaving the directory contents exactly as they were. -/
theorem save_networks_nonempty_dir_error (nets : List (DiGraph × List (List ℚ)))
    (files : Dir) (h : files ≠ []) :
    save_networks nets (some files) = (some "The directory is not empty.", some files) := by
  simp only [save_networks]
  rw [if_pos (List.length_pos.2 h)]

/-- Witness for C8: a populated one-file directory is left untouched. -/
theorem save_networks_nonempty_dir_error_witness :
    save_networks [(⟨[0], []⟩, [[0], [0]])]
        (some [("edgelist_0.txt", FileContent.edge ⟨[]⟩)]) =
      (some "The directory is not empty.",
       some [("edgelist_0.txt", FileContent.edge ⟨[]⟩)]) :=
  save_networks_nonempty_dir_error _ _ (by simp)

theorem mapOpt_length {α β : Type} (f : α → Option β) (l : List α) (r : List β)
    (h : mapOpt f l = some r) : r.length = l.length := by
  induction l generalizing r with
  | nil =>
    simp only [mapOpt, Option.some_inj] at h
    simp [← h]
  | cons a rest ih =>
    rw [mapOpt] at h
    cases hfa : f a with
    | none => rw [hfa] at h; simp at h
    | some b =>
      cases hrest : mapOpt f rest with
      | none => rw [hfa, hrest] at h; simp at h
      | some bs =>
        rw [hfa, hrest] at h
        simp only [Option.some_inj] at h
        rw [← h, List.length_cons, List.length_cons, ih bs hrest]

theorem insertStr_length (x : String) (l : List String) :
    (insertStr x l).length = l.length + 1 := by
  induction l with
  | nil => rfl
  | cons y ys ih =>
    rw [insertStr]
    split
    · simp
    · simp [ih]

theorem sortStr_length (l : List String) : (sortStr l).length = l.length := by
  induction l with
  | nil => rfl
  | cons x xs ih =>
    simp only [sortStr, List.foldr_cons] at *
    rw [insertStr_length, ih]
    rfl

/-- Concrete mismatched directory used for C9: two edge-list files, one
coordinate file. -/
def mismatchDir : Dir :=
  [("edgelist_0.txt", FileContent.edge ⟨[(0, 1)]⟩),
   ("edgelist_1.txt", FileContent.edge ⟨[]⟩),
   ("coords_0.txt", FileContent.coord ⟨["theta", "radius"], [[0, 0], [0, 0]]⟩)]

/-- C9, counterexample: a directory holding two edge-list files but a single
coordinate file is read without any error: `get_networks` silently pairs the
first edge file with the only coordinate file and returns one record, even
though the sorted name lists have lengths 2 and 1. -/
theorem get_networks_mismatch_no_error :
    get_networks mismatchDir = some [(⟨[0, 1], [(0, 1)]⟩, [[0, 0], [0, 0]])] ∧
    ((mismatchDir.map Prod.fst).filter (fun p => strContains p "edgelist")).length = 2 ∧
    ((mismatchDir.map Prod.fst).filter (fun p => strContains p "coords")).length = 1 :=
  ⟨by decide, by decide, by decide⟩

/-- C9 (amended): `get_networks` never reports a length mismatch; whenever it
returns a result, the result has exactly `min(#edge-list files, #coordinate
files)` records — the positional pairing of the two sorted name lists is
silently truncated to the shorter one. -/
theorem get_networks_length_min (d : Dir) (res : List (DiGraph × List (List ℚ)))
    (h : get_networks d = some res) :
    res.length =
      min ((d.map Prod.fst).filter (fun p => strContains p "edgelist")).length
          ((d.map Prod.fst).filter (fun p => strContains p "coords")).length := by
  simp only [get_networks] at h
  rw [mapOpt_length _ _ _ h, List.length_zip, sortStr_length, sortStr_length]

/-- Witness for C9: on the two-against-one directory the returned batch has
`min 2 1 = 1` record. -/
theorem get_networks_length_min_witness :
    ([(⟨[0, 1], [(0, 1)]⟩, [[0, 0], [0, 0]])] :
        List (DiGraph × List (List ℚ))).length =
      min ((mismatchDir.map Prod.fst).filter (fun p => strContains p "edgelist")).length
          ((mismatchDir.map Prod.fst).filter (fun p => strContains p "coords")).length :=
  get_networks_length_min mismatchDir _ (by decide)

theorem mem_addNode (acc : List Nat) (x n : Nat) :
    n ∈ addNode acc x ↔ n ∈ acc ∨ n = x := by
  rw [addNode]
  split
  · next hx =>
    constructor
    · exact Or.inl
    · rintro (h | h)
      · exact h
      · exact h ▸ hx
  · simp

theorem mem_foldl_addNode (xs : List Nat) (acc : List Nat) (n : Nat) :
    n ∈ xs.foldl addNode acc ↔ n ∈ acc ∨ n ∈ xs := by
  induction xs generalizing acc with
  | nil => simp
  | cons x rest ih =>
    rw [List.foldl_cons, ih, mem_addNode, List.mem_cons]
    tauto

theorem mem_foldl_addEdgeNodes (es : List (Nat × Nat)) (acc : List Nat) (n : Nat) :
    n ∈ es.foldl addEdgeNodes acc ↔ n ∈ acc ∨ ∃ e ∈ es, n = e.1 ∨ n = e.2 := by
  induction es generalizing acc with
  | nil => simp
  | cons e rest ih =>
    rw [List.foldl_cons, ih]
    simp only [addEdgeNodes, mem_addNode, List.exists_mem_cons_iff]
    constructor
    · rintro (((h | h) | h) | ⟨f, hf, h⟩)
      · exact Or.inl h
      · exact Or.inr (Or.inl (Or.inl h))
      · exact Or.inr (Or.inl (Or.inr h))
      · exact Or.inr (Or.inr ⟨f, hf, h⟩)
    · rintro (h | (h | h) | ⟨f, hf, h⟩)
      · exact Or.inl (Or.inl (Or.inl h))
      · exact Or.inl (Or.inl (Or.inr h))
      · exact Or.inl (Or.inr h)
      · exact Or.inr ⟨f, hf, h⟩

theorem foldl_addEdge_nodup (es : List (Nat × Nat)) (acc : List (Nat × Nat))
    (h : (acc ++ es).Nodup) : es.foldl addEdge acc = acc ++ es := by
  induction es generalizing acc with
  | nil => simp
  | cons e rest ih =>
    rw [List.foldl_cons]
    have hne : e ∉ acc := by
      intro hmem
      rcases List.nodup_append.1 h with ⟨-, -, hdisj⟩
      exact hdisj hmem (List.mem_cons_self e rest)
    rw [addEdge, if_neg hne, ih (acc ++ [e]) (by rw [List.append_assoc]; simpa using h),
      List.append_assoc]
    rfl

theorem self_eq_map_range_getD {α : Type} (l : List α) (d : α) :
    (List.range l.length).map (fun i => l.getD i d) = l := by
  apply List.ext_getElem (by simp)
  intro i h1 h2
  rw [List.getElem_map, List.getElem_range, List.getD_eq_getElem _ _ h2]

/-- The coordinate table written by `save_G_coords` when the column arrays all
have length `N`: the canonical header and one row per node holding the
per-column values. -/
theorem coords_to_csv_eq (coords : List (List ℚ)) (N : Nat)
    (hlen : (coordCols coords.length).length = coords.length)
    (hne : coords ≠ [])
    (hcols : ∀ c ∈ coords, c.length = N) :
    coords_to_csv coords =
      some ⟨coordCols coords.length,
        (List.range N).map (fun i => coords.map (fun c => c.getD i 0))⟩ := by
  have hmapsnd : ((coordCols coords.length).zip coords).map Prod.snd = coords :=
    List.map_snd_zip _ _ (le_of_eq hlen.symm)
  have hmapfst : ((coordCols coords.length).zip coords).map Prod.fst = coordCols coords.length :=
    List.map_fst_zip _ _ (le_of_eq hlen)
  have hn : (((coordCols coords.length).zip coords).headD ("", [])).2.length = N := by
    cases hcc : coordCols coords.length with
    | nil =>
      rw [hcc] at hlen
      simp only [List.length_nil] at hlen
      exact absurd (List.length_eq_zero.1 hlen.symm) hne
    | cons s st =>
      cases coords with
      | nil => exact absurd rfl hne
      | cons c ct =>
        exact hcols c (by simp)
  simp only [coords_to_csv]
  rw [hn]
  have hguard : (((coordCols coords.length).zip coords).all
      (fun p => decide (p.2.length = N))) = true := by
    apply List.all_eq_true.2
    intro p hp
    have : p.2 ∈ coords := by
      rw [← hmapsnd]
      exact List.mem_map_of_mem Prod.snd hp
    exact decide_eq_true (hcols p.2 this)
  rw [if_pos hguard, hmapfst]
  have hrow : (fun i => ((coordCols coords.length).zip coords).map (fun p => p.2.getD i 0)) =
      fun i => coords.map (fun c => c.getD i 0) := by
    funext i
    have h1 : ((coordCols coords.length).zip coords).map (fun p => p.2.getD i 0) =
        (((coordCols coords.length).zip coords).map Prod.snd).map (fun c => c.getD i 0) := by
      rw [List.map_map]
      rfl
    rw [h1, hmapsnd]
  rw [hrow]

theorem recovered_nodes_complete (G : DiGraph) (N : Nat)
    (hnodes : ∀ n, n ∈ G.nodes ↔ n < N)
    (hedge : ∀ e ∈ G.edges, e.1 ∈ G.nodes ∧ e.2 ∈ G.nodes) :
    ∀ n, n ∈ (List.range N).foldl addNode (G.edges.foldl addEdgeNodes []) ↔ n < N := by
  intro n
  rw [mem_foldl_addNode, mem_foldl_addEdgeNodes]
  simp only [List.not_mem_nil, false_or, List.mem_range]
  constructor
  · rintro (⟨e, he, h | h⟩ | h)
    · subst h; exact (hnodes _).1 (hedge e he).1
    · subst h; exact (hnodes _).1 (hedge e he).2
    · exact h
  · exact fun h => Or.inr h

/-- C10: a graph record with dense node ids `0..N-1` and a 2- or 3-array
coordinate tuple of length `N` survives the save/load round trip: the edge
list is recovered exactly (hence as the same edge set), the coordinate arrays
are recovered exactly (hence within any floating tolerance), and isolated
nodes absent from the edge list are re-added so the recovered node set is
again `0..N-1`. -/
theorem save_get_roundtrip (G : DiGraph) (coords : List (List ℚ)) (N : Nat)
    (hnodes : ∀ n, n ∈ G.nodes ↔ n < N)
    (hk : coords.length = 2 ∨ coords.length = 3)
    (hcols : ∀ c ∈ coords, c.length = N)
    (hedge : ∀ e ∈ G.edges, e.1 ∈ G.nodes ∧ e.2 ∈ G.nodes)
    (hnodup : G.edges.Nodup) :
    ∃ ef cf G2 coords2,
      save_G_coords G coords = some (ef, cf) ∧
      get_G_coords ef cf = some (G2, coords2) ∧
      G2.edges = G.edges ∧ coords2 = coords ∧ (∀ n, n ∈ G2.nodes ↔ n < N) := by
  have hedges2 : G.edges.foldl addEdge [] = G.edges := by
    simpa using foldl_addEdge_nodup G.edges [] (by simpa using hnodup)
  rcases hk with h2 | h3
  · obtain ⟨c1, c2, rfl⟩ : ∃ c1 c2, coords = [c1, c2] := by
      cases coords with
      | nil => simp at h2
      | cons a t =>
        cases t with
        | nil => simp at h2
        | cons b t2 =>
          cases t2 with
          | nil => exact ⟨a, b, rfl⟩
          | cons cc t3 => simp at h2
    have hc1 : c1.length = N := hcols c1 (by simp)
    have hc2 : c2.length = N := hcols c2 (by simp)
    refine ⟨⟨G.edges⟩,
      ⟨["theta", "radius"], (List.range N).map (fun i => [c1, c2].map (fun c => c.getD i 0))⟩,
      ⟨(List.range N).foldl addNode (G.edges.foldl addEdgeNodes []), G.edges⟩,
      [c1, c2], ?_, ?_, rfl, rfl, recovered_nodes_complete G N hnodes hedge⟩
    · simp only [save_G_coords]
      rw [coords_to_csv_eq [c1, c2] N (by simp [coordCols]) (by simp) hcols]
      simp [write_edgelist, coordCols]
    · have hrows0 : ((List.range N).map (fun i => [c1, c2].map (fun c => c.getD i 0))).map
          (fun r => r.getD 0 0) = c1 := by
        rw [List.map_map,
          show ((fun r => List.getD r 0 0) ∘ fun i => [c1, c2].map (fun c => c.getD i 0))
            = fun i => c1.getD i 0 from rfl, ← hc1]
        exact self_eq_map_range_getD c1 0
      have hrows1 : ((List.range N).map (fun i => [c1, c2].map (fun c => c.getD i 0))).map
          (fun r => r.getD 1 0) = c2 := by
        rw [List.map_map,
          show ((fun r => List.getD r 1 0) ∘ fun i => [c1, c2].map (fun c => c.getD i 0))
            = fun i => c2.getD i 0 from rfl, ← hc2]
        exact self_eq_map_range_getD c2 0
      have hl1 : lookupCol ["theta", "radius"]
          ((List.range N).map (fun i => [c1, c2].map (fun c => c.getD i 0))) "theta"
          = some c1 := by
        rw [lookupCol, show List.indexOf? "theta" ["theta", "radius"] = some 0 from by decide]
        exact congrArg some hrows0
      have hl2 : lookupCol ["theta", "radius"]
          ((List.range N).map (fun i => [c1, c2].map (fun c => c.getD i 0))) "radius"
          = some c2 := by
        rw [lookupCol, show List.indexOf? "radius" ["theta", "radius"] = some 1 from by decide]
        exact congrArg some hrows1
      have hext : mapOpt (lookupCol ["theta", "radius"]
            ((List.range N).map (fun i => [c1, c2].map (fun c => c.getD i 0))))
          ["theta", "radius"] = some [c1, c2] := by
        rw [mapOpt, hl1, mapOpt, hl2, mapOpt]
      have hall2 : ((List.range N).map (fun i => [c1, c2].map (fun c => c.getD i 0))).all
          (fun r => decide (r.length = (["theta", "radius"] : List String).length)) = true := by
        apply List.all_eq_true.2
        intro r hr
        rcases List.mem_map.1 hr with ⟨i, -, rfl⟩
        simp
      simp only [get_G_coords]
      rw [if_pos hall2,
        show coordCols (["theta", "radius"] : List String).length = ["theta", "radius"]
          from by decide, hext]
      simp only [read_edgelist, List.length_map, List.length_range, hedges2]
  · obtain ⟨c1, c2, c3, rfl⟩ : ∃ c1 c2 c3, coords = [c1, c2, c3] := by
      cases coords with
      | nil => simp at h3
      | cons a t =>
        cases t with
        | nil => simp at h3
        | cons b t2 =>
          cases t2 with
          | nil => simp at h3
          | cons cc t3 =>
            cases t3 with
            | nil => exact ⟨a, b, cc, rfl⟩
            | cons dd t4 => simp at h3
    have hc1 : c1.length = N := hcols c1 (by simp)
    have hc2 : c2.length = N := hcols c2 (by simp)
    have hc3 : c3.length = N := hcols c3 (by simp)
    refine ⟨⟨G.edges⟩,
      ⟨["theta", "radius_p", "radius_m"],
        (List.range N).map (fun i => [c1, c2, c3].map (fun c => c.getD i 0))⟩,
      ⟨(List.range N).foldl addNode (G.edges.foldl addEdgeNodes []), G.edges⟩,
      [c1, c2, c3], ?_, ?_, rfl, rfl, recovered_nodes_complete G N hnodes hedge⟩
    · simp only [save_G_coords]
      rw [coords_to_csv_eq [c1, c2, c3] N (by simp [coordCols]) (by simp) hcols]
      simp [write_edgelist, coordCols]
    · have hrows0 : ((List.range N).map (fun i => [c1, c2, c3].map (fun c => c.getD i 0))).map
          (fun r => r.getD 0 0) = c1 := by
        rw [List.map_map,
          show ((fun r => List.getD r 0 0) ∘ fun i => [c1, c2, c3].map (fun c => c.getD i 0))
            = fun i => c1.getD i 0 from rfl, ← hc1]
        exact self_eq_map_range_getD c1 0
      have hrows1 : ((List.range N).map (fun i => [c1, c2, c3].map (fun c => c.getD i 0))).map
          (fun r => r.getD 1 0) = c2 := by
        rw [List.map_map,
          show ((fun r => List.getD r 1 0) ∘ fun i => [c1, c2, c3].map (fun c => c.getD i 0))
            = fun i => c2.getD i 0 from rfl, ← hc2]
        exact self_eq_map_range_getD c2 0
      have hrows2 : ((List.range N).map (fun i => [c1, c2, c3].map (fun c => c.getD i 0))).map
          (fun r => r.getD 2 0) = c3 := by
        rw [List.map_map,
          show ((fun r => List.getD r 2 0) ∘ fun i => [c1, c2, c3].map (fun c => c.getD i 0))
            = fun i => c3.getD i 0 from rfl, ← hc3]
        exact self_eq_map_range_getD c3 0
      have hl1 : lookupCol ["theta", "radius_p", "radius_m"]
          ((List.range N).map (fun i => [c1, c2, c3].map (fun c => c.getD i 0))) "theta"
          = some c1 := by
        rw [lookupCol,
          show List.indexOf? "theta" ["theta", "radius_p", "radius_m"] = some 0 from by decide]
        exact congrArg some hrows0
      have hl2 : lookupCol ["theta", "radius_p", "radius_m"]
          ((List.range N).map (fun i => [c1, c2, c3].map (fun c => c.getD i 0))) "radius_p"
          = some c2 := by
        rw [lookupCol,
          show List.indexOf? "radius_p" ["theta", "radius_p", "radius_m"] = some 1 from by decide]
        exact congrArg some hrows1
      have hl3 : lookupCol ["theta", "radius_p", "radius_m"]
          ((List.range N).map (fun i => [c1, c2, c3].map (fun c => c.getD i 0))) "radius_m"
          = some c3 := by
        rw [lookupCol,
          show List.indexOf? "radius_m" ["theta", "radius_p", "radius_m"] = some 2 from by decide]
        exact congrArg some hrows2
      have hext : mapOpt (lookupCol ["theta", "radius_p", "radius_m"]
            ((List.range N).map (fun i => [c1, c2, c3].map (fun c => c.getD i 0))))
          ["theta", "radius_p", "radius_m"] = some [c1, c2, c3] := by
        rw [mapOpt, hl1, mapOpt, hl2, mapOpt, hl3, mapOpt]
      have hall3 : ((List.range N).map (fun i => [c1, c2, c3].map (fun c => c.getD i 0))).all
          (fun r => decide
            (r.length = (["theta", "radius_p", "radius_m"] : List String).length)) = true := by
        apply List.all_eq_true.2
        intro r hr
        rcases List.mem_map.1 hr with ⟨i, -, rfl⟩
        simp
      simp only [get_G_coords]
      rw [if_pos hall3,
        show coordCols (["theta", "radius_p", "radius_m"] : List String).length
          = ["theta", "radius_p", "radius_m"] from by decide, hext]
      simp only [read_edgelist, List.length_map, List.length_range, hedges2]

/-- Witness for C10: a 3-node record (node 2 isolated from the single edge)
with a 2-array coordinate tuple survives the round trip. -/
theorem save_get_roundtrip_witness :
    ∃ ef cf G2 coords2,
      save_G_coords ⟨[0, 1, 2], [(0, 1)]⟩ [[1 / 2, 1, 3 / 2], [2, 3, 4]] = some (ef, cf) ∧
      get_G_coords ef cf = some (G2, coords2) ∧
      G2.edges = [(0, 1)] ∧ coords2 = [[1 / 2, 1, 3 / 2], [2, 3, 4]] ∧
      (∀ n, n ∈ G2.nodes ↔ n < 3) :=
  save_get_roundtrip ⟨[0, 1, 2], [(0, 1)]⟩ [[1 / 2, 1, 3 / 2], [2, 3, 4]] 3
    (by intro n; simp [List.mem_cons]; omega)
    (Or.inl rfl)
    (by intro c hc; simp only [List.mem_cons, List.not_mem_nil, or_false] at hc
        rcases hc with rfl | rfl <;> rfl)
    (by intro e he; simp only [List.mem_cons, List.not_mem_nil, or_false] at he
        subst he; exact ⟨by simp, by simp⟩)
    (by simp)

/-- Witness for C4 at the degenerate sequence `[3]`. -/
theorem log_binning_degenerate_witness :
    (if listMax [3] = 0 then log_binning [3] 2 = some ([], [])
     else log_binning [3] 2 = some ([(listMax [3] : ℚ)], [1])) ∧
    (∃ ps y, log_cumulative_distribution [3] 5 = some (ps, y) ∧
      ps.length = 5 ∧ y.length = 5) :=
  log_binning_degenerate [3] 2 5 (by decide) (by decide)
